import Mathlib

/-!
Shallow embedding of the noisy-image-gen raster pipeline
(`src/shapes.rs`, `src/coloring.rs`, `src/noise.rs`, `src/image_gen.rs`).

Modelling conventions:
* `f64` values that the program only ever combines with `+ - *` and compares
  are modelled as `ℚ`; the inputs used in concrete theorems are small integers
  or halves, on which the corresponding IEEE-754 double operations are exact.
* `f64::sqrt` is modelled by `Rat.sqrt`; every concrete theorem evaluates it
  only on arguments that are perfect squares of rationals, where both
  `Rat.sqrt` and the IEEE square root are exact.
* `f64` divisions whose divisor can be zero (ellipse membership, the inverse
  scale factor) are modelled by `FVal`, a rational extended with `inf`, `ninf`
  and `nan`, following the IEEE-754 rules for the operations the code uses.
* machine integers (`u8`, `u16`, `u32`, `usize`) are modelled as `ℕ`, with the
  narrowing `as u8` cast made explicit as `% 256` (`toU8`); `u8` channel values
  themselves are `Fin 256`.
* Rust code that can panic (integer division by zero, out-of-bounds `Vec`
  indexing, `expect`, `panic!`-style validation) is modelled with `Option`,
  `none` standing for the panic; in particular a noise-driven pixel swap at an
  out-of-bounds sampled point aborts the run instead of being a no-op.
* the RNG plus the `PointSampler` distribution attached to a noise operator is
  modelled as a stream `ℕ → Point` of successive sampled points together with a
  counter of how many points have been drawn.
-/

/-- Truncating cast to `u8`: the low 8 bits of a machine integer
(the semantics of Rust's `as u8` on an integer type). -/
def toU8 (n : ℕ) : Fin 256 := ⟨n % 256, Nat.mod_lt _ (by norm_num)⟩

/-- Rust's saturating float-to-`u8` cast (`as u8` on an `f64`): truncate toward
zero, clamp into `[0, 255]`. -/
def f64AsU8 (q : ℚ) : Fin 256 := ⟨min (Int.toNat ⌊q⌋) 255, by omega⟩

/-- Rust's saturating float-to-`usize` cast (`as usize` on an `f64`): truncate
toward zero, negative values saturate to `0`. -/
def f64AsUsize (q : ℚ) : ℕ := Int.toNat ⌊q⌋

/-- Embeds `f64::clamp(self, lo, hi)` on finite values. -/
def fclamp (q lo hi : ℚ) : ℚ := min (max q lo) hi

/-- IEEE-754 double value as far as this code base observes it: a finite
rational, the two infinities, or NaN.  Finite-value rounding is not modelled
(the concrete inputs used in theorems are exactly representable). -/
inductive FVal where
  | fin (q : ℚ)
  | inf
  | ninf
  | nan
deriving DecidableEq

/-- IEEE division of finite doubles: `x / 0` is `NaN` when `x = 0` and a
signed infinity otherwise (the divisors produced by this code are `+0`). -/
def fdiv (a b : ℚ) : FVal :=
  if b = 0 then
    if a = 0 then .nan else if 0 < a then .inf else .ninf
  else .fin (a / b)

/-- IEEE addition on `FVal`. -/
def fadd : FVal → FVal → FVal
  | .nan, _ => .nan
  | _, .nan => .nan
  | .inf, .ninf => .nan
  | .ninf, .inf => .nan
  | .inf, _ => .inf
  | _, .inf => .inf
  | .ninf, _ => .ninf
  | _, .ninf => .ninf
  | .fin a, .fin b => .fin (a + b)

/-- IEEE `<=` on `FVal`: any comparison with NaN is false. -/
def fle : FVal → FVal → Bool
  | .nan, _ => false
  | _, .nan => false
  | .ninf, _ => true
  | _, .ninf => false
  | .inf, .inf => true
  | .inf, .fin _ => false
  | .fin _, .inf => true
  | .fin a, .fin b => decide (a ≤ b)

/-! ### Geometry (`src/shapes.rs`) -/

/-- Embeds `Point` (shapes.rs). -/
structure Point where
  x : ℚ
  y : ℚ
deriving DecidableEq

/-- Embeds `Point::ORIGIN`. -/
def Point.ORIGIN : Point := ⟨0, 0⟩

/-- Embeds `Point::square_dist_to`. -/
def Point.squareDistTo (p other : Point) : ℚ :=
  let xDiff := other.x - p.x
  let yDiff := other.y - p.y
  xDiff * xDiff + yDiff * yDiff

/-- Embeds `Point::dist_to` (`f64::sqrt` modelled by `Rat.sqrt`, exact on the
perfect-square arguments all concrete theorems use). -/
def Point.distTo (p other : Point) : ℚ := Rat.sqrt (p.squareDistTo other)

/-- Embeds `Area` (shapes.rs).  Field order follows the source. -/
structure Area where
  height : ℚ
  width : ℚ
deriving DecidableEq

/-- Embeds `Area::EMPTY`. -/
def Area.EMPTY : Area := ⟨0, 0⟩

/-- Embeds `Area::bounding_area`. -/
def Area.boundingArea (point1 point2 : Point) : Area :=
  let xs := if point1.x ≤ point2.x then (point1.x, point2.x) else (point2.x, point1.x)
  let ys := if point1.y ≤ point2.y then (point1.y, point2.y) else (point2.y, point1.y)
  ⟨ys.2 - ys.1, xs.2 - xs.1⟩

/-- Embeds `Translation` (shapes.rs). -/
structure Translation where
  newOrigin : Point
deriving DecidableEq

/-- Embeds `Translation::identity`. -/
def Translation.identity : Translation := ⟨Point.ORIGIN⟩

/-- Embeds `Translation::to`. -/
def Translation.to (newOrigin : Point) : Translation := ⟨newOrigin⟩

/-- Embeds `Translation::transform`. -/
def Translation.transform (t : Translation) (point : Point) : Point :=
  ⟨point.x + t.newOrigin.x, point.y + t.newOrigin.y⟩

/-- The translation built by `Translation::get_inverse` (the source wraps it
into the `Transformation` enum before use; the wrapping only re-dispatches to
`Translation::transform`). -/
def Translation.getInverseT (t : Translation) : Translation :=
  ⟨⟨-t.newOrigin.x, -t.newOrigin.y⟩⟩

/-- Embeds `Translation::inverse_transform` (the trait default
`get_inverse().transform(p)`). -/
def Translation.inverseTransform (t : Translation) (point : Point) : Point :=
  t.getInverseT.transform point

/-- Truncated Taylor series standing in for `f64::cos`.  Every theorem below
evaluates it only at angle `0`, where it agrees exactly with the IEEE cosine
(`cos 0.0 == 1.0`). -/
def cosQ (x : ℚ) : ℚ := 1 - x * x / 2 + x * x * x * x / 24

/-- Truncated Taylor series standing in for `f64::sin`.  Every theorem below
evaluates it only at angle `0`, where it agrees exactly with the IEEE sine
(`sin 0.0 == 0.0`). -/
def sinQ (x : ℚ) : ℚ := x - x * x * x / 6

/-- Embeds `Rotation` (shapes.rs). -/
structure Rotation where
  angle : ℚ
  centerOfRotation : Translation
deriving DecidableEq

/-- Embeds `Rotation::identity`. -/
def Rotation.identity : Rotation := ⟨0, Translation.identity⟩

/-- Embeds `Rotation::rot_origin`. -/
def Rotation.rotOrigin (angle : ℚ) : Rotation := ⟨angle, Translation.identity⟩

/-- Embeds `Rotation::rotate`. -/
def Rotation.rotate (angle : ℚ) (centerOfRotation : Point) : Rotation :=
  ⟨angle, Translation.to centerOfRotation⟩

/-- Embeds `Rotation::transform`, exactly as in the source: the rotated point is
`(cos(angle) * x, sin(angle) * y)`. -/
def Rotation.transform (r : Rotation) (point : Point) : Point :=
  let rotatablePoint := r.centerOfRotation.transform point
  let rotatedPoint : Point := ⟨cosQ r.angle * rotatablePoint.x, sinQ r.angle * rotatablePoint.y⟩
  r.centerOfRotation.inverseTransform rotatedPoint

/-- The rotation built by `Rotation::get_inverse`. -/
def Rotation.getInverseR (r : Rotation) : Rotation :=
  ⟨-r.angle, r.centerOfRotation⟩

/-- Embeds `Scale` (shapes.rs). -/
structure Scale where
  fixedPoint : Translation
  scalar : Area
deriving DecidableEq

/-- Embeds `Scale::by_from`. -/
def Scale.byFrom (scalar : Area) (from_ : Point) : Scale :=
  ⟨Translation.to from_, scalar⟩

/-- Embeds `Scale::by`. -/
def Scale.by (scalar : Area) : Scale := Scale.byFrom scalar Point.ORIGIN

/-- Embeds `Scale::identity`: note the source passes `Area::EMPTY`, i.e. both scale
factors are `0`. -/
def Scale.identity : Scale := Scale.by Area.EMPTY

/-- Embeds `Scale::transform`. -/
def Scale.transform (s : Scale) (point : Point) : Point :=
  let scalablePoint := s.fixedPoint.transform point
  let scaledPoint : Point := ⟨s.scalar.width * scalablePoint.x, s.scalar.height * scalablePoint.y⟩
  s.fixedPoint.inverseTransform scaledPoint

/-- The scale built by `Scale::get_inverse`.  The source computes the new
factors with `f64` division `1.0 / factor`; on the rational carrier `1 / 0`
collapses to `0`, so `Scale.invFactorWidth` / `Scale.invFactorHeight` below
record the same two divisions under IEEE semantics.  No theorem evaluates this
definition at a zero factor. -/
def Scale.getInverseS (s : Scale) : Scale :=
  ⟨s.fixedPoint, ⟨1 / s.scalar.height, 1 / s.scalar.width⟩⟩

/-- The width scale factor computed by `Scale::get_inverse`
(`1.0 / self.scalar.width`), under IEEE division semantics. -/
def Scale.invFactorWidth (s : Scale) : FVal := fdiv 1 s.scalar.width

/-- The height scale factor computed by `Scale::get_inverse`
(`1.0 / self.scalar.height`), under IEEE division semantics. -/
def Scale.invFactorHeight (s : Scale) : FVal := fdiv 1 s.scalar.height

/-- Embeds `Transformation` (shapes.rs): tagged union of the three transforms. -/
inductive Transformation where
  | rotation (r : Rotation)
  | translation (t : Translation)
  | scale (s : Scale)
deriving DecidableEq

/-- Embeds `Transformation::transform` (dispatch). -/
def Transformation.transform : Transformation → Point → Point
  | .rotation r, p => r.transform p
  | .translation t, p => t.transform p
  | .scale s, p => s.transform p

/-- Embeds `Transformation::get_inverse` (dispatch; each arm wraps the inverse built
by the respective `get_inverse`). -/
def Transformation.getInverse : Transformation → Transformation
  | .rotation r => .rotation r.getInverseR
  | .translation t => .translation t.getInverseT
  | .scale s => .scale s.getInverseS

/-- The `Transform` trait's default `inverse_transform`:
`get_inverse().transform(p)`. -/
def Transformation.inverseTransform (t : Transformation) (point : Point) : Point :=
  t.getInverse.transform point

/-- Embeds `Rect` (shapes.rs). -/
structure Rect where
  minPoint : Point
  size : Area
deriving DecidableEq

/-- Embeds `Rect::from_points`. -/
def Rect.fromPoints (point1 point2 : Point) : Rect :=
  let xs := if point1.x ≤ point2.x then (point1.x, point2.x) else (point2.x, point1.x)
  let ys := if point1.y ≤ point2.y then (point1.y, point2.y) else (point2.y, point1.y)
  ⟨⟨xs.1, ys.1⟩, ⟨ys.2 - ys.1, xs.2 - xs.1⟩⟩

/-- Embeds `Rect::max_point`. -/
def Rect.maxPoint (r : Rect) : Point :=
  ⟨r.minPoint.x + r.size.width, r.minPoint.y + r.size.height⟩

/-- Embeds `Rect::contains` (`CheckInside` impl). -/
def Rect.contains (r : Rect) (point : Point) : Bool :=
  decide (point.x ≥ r.minPoint.x) && decide (point.y ≥ r.minPoint.y) &&
  decide (point.x ≤ r.maxPoint.x) && decide (point.y ≤ r.maxPoint.y)

/-- Embeds `Ellipse` (shapes.rs). -/
structure Ellipse where
  center : Point
  boundingArea : Area
deriving DecidableEq

/-- Embeds `Ellipse::circle`. -/
def Ellipse.circle (center : Point) (radius : ℚ) : Ellipse :=
  ⟨center, ⟨radius * 2, radius * 2⟩⟩

/-- Embeds `Ellipse::contains` (`CheckInside` impl).  The two per-axis parts are
`(v - c)^2 / r^2`; with radius `0` the `f64` division yields `inf` or `NaN`,
which is what `FVal` captures. -/
def Ellipse.contains (e : Ellipse) (point : Point) : Bool :=
  let computePart := fun (testVal centerVal radius : ℚ) =>
    let numerSqrt := testVal - centerVal
    fdiv (numerSqrt * numerSqrt) (radius * radius)
  let xPart := computePart point.x e.center.x (e.boundingArea.width / 2)
  let yPart := computePart point.y e.center.y (e.boundingArea.height / 2)
  fle (fadd xPart yPart) (.fin 1)

/-- Embeds `Shape` (shapes.rs): tagged union; `TransformedShape` is the recursive
constructor holding the boxed inner shape and the transformation. -/
inductive Shape where
  | rect (r : Rect)
  | ellipse (e : Ellipse)
  | transformed (innerShape : Shape) (transformation : Transformation)

/-- Embeds `Shape::contains` / `TransformedShape::contains`: the transformed shape
delegates to the inner shape at the transformed query point. -/
def Shape.contains : Shape → Point → Bool
  | .rect r, p => r.contains p
  | .ellipse e, p => e.contains p
  | .transformed inner t, p => inner.contains (t.transform p)

/-! ### Color algebra (`src/coloring.rs`) -/

/-- Embeds `SolidColor` (coloring.rs): three `u8` channels. -/
structure SolidColor where
  red : Fin 256
  green : Fin 256
  blue : Fin 256
deriving DecidableEq

/-- Embeds `SolidColor::BLACK`. -/
def SolidColor.BLACK : SolidColor := ⟨0, 0, 0⟩

/-- Embeds `TransparentColor` (coloring.rs): four `u8` channels. -/
structure TransparentColor where
  red : Fin 256
  green : Fin 256
  blue : Fin 256
  alpha : Fin 256
deriving DecidableEq

/-- Embeds `TransparentColor::TRANSPARENT`. -/
def TransparentColor.TRANSPARENT : TransparentColor := ⟨0, 0, 0, 0⟩

/-- Embeds `Color::mix` for `TransparentColor`: one pass accumulating the four
weighted channel sums in `f64`, then clamp each to `[0, 255]` and cast
with `as u8`. -/
def TransparentColor.mix (colorWeights : List (TransparentColor × ℚ)) : TransparentColor :=
  let sums := colorWeights.foldl
    (fun (acc : ℚ × ℚ × ℚ × ℚ) cw =>
      (acc.1 + (cw.1.red.val : ℚ) * cw.2,
       acc.2.1 + (cw.1.green.val : ℚ) * cw.2,
       acc.2.2.1 + (cw.1.blue.val : ℚ) * cw.2,
       acc.2.2.2 + (cw.1.alpha.val : ℚ) * cw.2))
    (0, 0, 0, 0)
  ⟨f64AsU8 (fclamp sums.1 0 255),
   f64AsU8 (fclamp sums.2.1 0 255),
   f64AsU8 (fclamp sums.2.2.1 0 255),
   f64AsU8 (fclamp sums.2.2.2 0 255)⟩

/-- Embeds `TransparentColor::as_solid`. -/
def TransparentColor.asSolid (c : TransparentColor) : SolidColor :=
  ⟨c.red, c.green, c.blue⟩

/-- Embeds `TransparentColor::draw_on_solid`: the `u16` blend
`base*(255-a)/255 + over*a/255`, truncated back to `u8`. -/
def TransparentColor.drawOnSolid (c : TransparentColor) (baseColor : SolidColor) : SolidColor :=
  let findNewColor := fun (color1 color2 : Fin 256) =>
    toU8 (color1.val * (255 - c.alpha.val) / 255 + color2.val * c.alpha.val / 255)
  ⟨findNewColor baseColor.red c.red,
   findNewColor baseColor.green c.green,
   findNewColor baseColor.blue c.blue⟩

/-- Embeds `TransparentColor::draw_on` (transparent over transparent), in `u32`
arithmetic.  The source divides `numer / new_alpha` with no zero guard; a Rust
`u32` division by zero panics, which is modelled as `none`. -/
def TransparentColor.drawOn (c : TransparentColor) (baseColor : TransparentColor) : Option TransparentColor :=
  let newAlpha : ℕ := c.alpha.val + baseColor.alpha.val - c.alpha.val * baseColor.alpha.val / 255
  if newAlpha = 0 then none
  else
    let findNewColor := fun (color1 color2 : Fin 256) =>
      let numer := color1.val * color2.val * (255 - c.alpha.val) + 255 * color2.val * c.alpha.val
      toU8 (numer / newAlpha)
    some ⟨findNewColor baseColor.red c.red,
          findNewColor baseColor.green c.green,
          findNewColor baseColor.blue c.blue,
          toU8 newAlpha⟩

/-- One hexadecimal digit, as accepted by `from_str_radix(_, 16)`. -/
def hexDigitVal (c : Char) : Option ℕ :=
  if '0' ≤ c ∧ c ≤ '9' then some (c.toNat - '0'.toNat)
  else if 'a' ≤ c ∧ c ≤ 'f' then some (c.toNat - 'a'.toNat + 10)
  else if 'A' ≤ c ∧ c ≤ 'F' then some (c.toNat - 'A'.toNat + 10)
  else none

/-- Embeds `u8::from_str_radix(s, 16)`: an optional leading `+`/`-` sign, then at
least one hex digit; the value must fit in `u8` and a `-` sign is only legal
on value `0`.  `none` models `Err`. -/
def fromStrRadix16 (cs : List Char) : Option ℕ := do
  let (neg, digits) :=
    match cs with
    | '+' :: rest => (false, rest)
    | '-' :: rest => (true, rest)
    | _ => (false, cs)
  if digits.isEmpty then none
  else
    let v ← digits.foldlM (fun acc c => (hexDigitVal c).map fun d => acc * 16 + d) 0
    if v > 255 then none
    else if neg ∧ v ≠ 0 then none
    else some v

/-- Rust byte-range slicing `&s[a..b]` on an ASCII string. -/
def strSlice (cs : List Char) (a b : ℕ) : List Char := (cs.drop a).take (b - a)

/-- Embeds `TransparentColor::from_hex_code`: strips an optional leading `#`, accepts
length 6 or 8, parses red/green/blue from `[0..2]`, `[2..4]`, `[4..6]`, sets
alpha to 255, then for length 8 re-parses `[4..6]` into alpha (exactly as the
source does).  `none` models the panics (`expect` on a bad component, bad
length). -/
def TransparentColor.fromHexCode (s : List Char) : Option TransparentColor :=
  let hexCode := if s.head? = some '#' then s.drop 1 else s
  if hexCode.length = 6 ∨ hexCode.length = 8 then
    match fromStrRadix16 (strSlice hexCode 0 2), fromStrRadix16 (strSlice hexCode 2 4),
          fromStrRadix16 (strSlice hexCode 4 6) with
    | some red, some green, some blue =>
      if hexCode.length = 8 then
        match fromStrRadix16 (strSlice hexCode 4 6) with
        | some alpha => some ⟨toU8 red, toU8 green, toU8 blue, toU8 alpha⟩
        | none => none
      else some ⟨toU8 red, toU8 green, toU8 blue, toU8 255⟩
    | _, _, _ => none
  else none

/-! ### Coloring schemes (`src/coloring.rs`), instantiated at
`ColorType = TransparentColor` as the draw pipeline uses them. -/

/-- Embeds `LinearGradient<TransparentColor>`. -/
structure LinearGradient where
  pole1 : Point × TransparentColor
  pole2 : Point × TransparentColor
deriving DecidableEq

/-- Embeds `LinearGradient::with_poles`: orders the poles by x then y; coincident
poles panic (`none`). -/
def LinearGradient.withPoles (pole1 pole2 : Point × TransparentColor) : Option LinearGradient :=
  if pole1.1.x = pole2.1.x then
    if pole1.1.y = pole2.1.y then none
    else if pole1.1.y < pole2.1.y then some ⟨pole1, pole2⟩
    else some ⟨pole2, pole1⟩
  else if pole1.1.x < pole2.1.x then some ⟨pole1, pole2⟩
  else some ⟨pole2, pole1⟩

/-- Embeds `LinearGradient::sample_color`: saturate beyond the poles, otherwise mix
with `portion1 = dist1 / (dist1 + dist2)` as the weight of pole 1 — i.e. the
weight of each pole is the normalized distance to that same pole. -/
def LinearGradient.sampleColor (g : LinearGradient) (point : Point) : TransparentColor :=
  if g.pole1.1.x = g.pole2.1.x then
    if point.y < g.pole1.1.y then g.pole1.2
    else if point.y > g.pole2.1.y then g.pole2.2
    else
      let dist1 := point.distTo g.pole1.1
      let dist2 := point.distTo g.pole2.1
      let totalDist := dist1 + dist2
      let portion1 := dist1 / totalDist
      let portion2 := 1 - portion1
      TransparentColor.mix [(g.pole1.2, portion1), (g.pole2.2, portion2)]
  else
    if point.x < g.pole1.1.x then g.pole1.2
    else if point.x > g.pole2.1.x then g.pole2.2
    else
      let dist1 := point.distTo g.pole1.1
      let dist2 := point.distTo g.pole2.1
      let totalDist := dist1 + dist2
      let portion1 := dist1 / totalDist
      let portion2 := 1 - portion1
      TransparentColor.mix [(g.pole1.2, portion1), (g.pole2.2, portion2)]

/-- Embeds `ComplexGradient<TransparentColor>`. -/
structure ComplexGradient where
  poles : List (Point × TransparentColor)
deriving DecidableEq

/-- Embeds `ComplexGradient::sample_color`: weight of each pole is its distance to
the query point over the total distance.  The source divides in `f64` (a
coincident pole with zero total distance yields NaN weights); on the rational
carrier `d / 0 = 0`.  No theorem samples a nonempty complex gradient, and for
the empty pole list (where the fold is empty and no division is reached) the
model and the `f64` code agree exactly. -/
def ComplexGradient.sampleColor (g : ComplexGradient) (point : Point) : TransparentColor :=
  let totalDist : ℚ := (g.poles.map fun pc => point.distTo pc.1).sum
  let scaledPoles := g.poles.map fun pc => (pc.2, point.distTo pc.1 / totalDist)
  TransparentColor.mix scaledPoles

/-- Embeds `ColorScheme<TransparentColor>`. -/
inductive ColorScheme where
  | linearGradient (g : LinearGradient)
  | complexGradient (g : ComplexGradient)
deriving DecidableEq

/-- Embeds `ColorScheme::sample_color` (dispatch). -/
def ColorScheme.sampleColor : ColorScheme → Point → TransparentColor
  | .linearGradient g, p => g.sampleColor p
  | .complexGradient g, p => g.sampleColor p

/-! ### Image (`src/image_gen.rs`) and noise (`src/noise.rs`) -/

/-- Embeds `Image` (image_gen.rs): a flat `SolidColor` buffer plus the canvas
width. -/
structure Image where
  canvasWidth : ℕ
  canvas : List SolidColor
deriving DecidableEq

/-- Embeds `Image::canvas_height`: `canvas.len() / canvas_width`. -/
def Image.canvasHeight (img : Image) : ℕ := img.canvas.length / img.canvasWidth

/-- Embeds `Image::get_index`. -/
def Image.getIndex (img : Image) (x y : ℕ) : ℕ := x + y * img.canvasWidth

/-- Embeds `Image::get_pixel`.  The source indexes the `Vec` directly, which
panics when the index is out of bounds (reachable: the noise operator passes
points from rejection sampling, which can be arbitrary out-of-bounds points);
the panic is modelled as `none`. -/
def Image.getPixel (img : Image) (x y : ℕ) : Option SolidColor :=
  img.canvas[img.getIndex x y]?

/-- Embeds `Image::swap_pixels`: read both pixels (each read panics out of
bounds, in source order: slot 1's read, then slot 2's), then write pixel 2's
old value into slot 1 and the saved value of slot 1 into slot 2.  `none`
models the panic; once both reads succeed, the `List.set` writes hit the same
in-range indices. -/
def Image.swapPixels (img : Image) (x1 y1 x2 y2 : ℕ) : Option Image := do
  let tmpPixel ← img.getPixel x1 y1
  let other ← img.getPixel x2 y2
  some { img with canvas := (img.canvas.set (img.getIndex x1 y1) other).set (img.getIndex x2 y2) tmpPixel }

/-- Embeds `BoundedNoise` (noise.rs). -/
structure BoundedNoise where
  bounds : Rect
  swapDensity : ℚ

/-- The retry loop inside `BoundedNoise::sample_bounded_point`, verbatim: the
`for _ in 0..MAX_RETRIES` loop re-tests the same `random_point` (the source
never draws a fresh point inside the loop) and the point is returned in every
branch. -/
def BoundedNoise.retryLoop (bn : BoundedNoise) (maxBoundPoint randomPoint : Point) : ℕ → Point
  | 0 => randomPoint
  | fuel + 1 =>
    if bn.bounds.contains randomPoint ∧ randomPoint.x ≠ maxBoundPoint.x ∧
        randomPoint.y ≠ maxBoundPoint.y then randomPoint
    else bn.retryLoop maxBoundPoint randomPoint fuel

/-- Embeds `BoundedNoise::sample_bounded_point`, with the sampler/RNG modelled as the
stream of points successive draws would produce and `k` the number of draws
made so far.  `MAX_RETRIES = 200`. -/
def BoundedNoise.sampleBoundedPoint (bn : BoundedNoise) (stream : ℕ → Point) (k : ℕ) : Point × ℕ :=
  let maxBoundPoint := bn.bounds.maxPoint
  let randomPoint := stream k
  (bn.retryLoop maxBoundPoint randomPoint 200, k + 1)

/-- Embeds `total_iters as usize` in `BoundedNoise::add_noise`: the `f64` product
`canvas_width * canvas_height * swap_density` truncated toward zero
(saturating at 0), not rounded. -/
def BoundedNoise.totalIters (bn : BoundedNoise) (img : Image) : ℕ :=
  f64AsUsize ((img.canvasWidth : ℚ) * (img.canvasHeight : ℚ) * bn.swapDensity)

/-- The swap loop of `BoundedNoise::add_noise`: each iteration draws two
bounded points and swaps the two pixels.  The state is
`(image, draws-consumed, swaps-completed)`; the swap counter instruments the
number of completed `swap_pixels` calls.  A swap at an out-of-bounds point
panics (`swap_pixels` returns `none`), aborting the whole run mid-loop —
fewer swaps are then performed than the iteration count. -/
def BoundedNoise.addNoiseLoop (bn : BoundedNoise) (stream : ℕ → Point) :
    ℕ → Image × ℕ × ℕ → Option (Image × ℕ × ℕ)
  | 0, st => some st
  | fuel + 1, (img, k, swaps) =>
    let s1 := bn.sampleBoundedPoint stream k
    let s2 := bn.sampleBoundedPoint stream s1.2
    match img.swapPixels (f64AsUsize s1.1.x) (f64AsUsize s1.1.y)
        (f64AsUsize s2.1.x) (f64AsUsize s2.1.y) with
    | some img' => bn.addNoiseLoop stream fuel (img', s2.2, swaps + 1)
    | none => none

/-- Embeds `BoundedNoise::add_noise`.  `none` models the program aborting on an
out-of-bounds pixel swap. -/
def BoundedNoise.addNoise (bn : BoundedNoise) (img : Image) (stream : ℕ → Point) :
    Option (Image × ℕ × ℕ) :=
  bn.addNoiseLoop stream (bn.totalIters img) (img, 0, 0)

/-- Embeds `NoiseTypes<R, N>` (noise.rs): the sampler (modelled as its stream of
drawn points) plus the noising behavior, whose only variant is
`BoundedNoise`. -/
structure NoiseTypes where
  stream : ℕ → Point
  bounded : BoundedNoise

/-- Embeds `Noise::add_noise` for `NoiseTypes` (via `inner_add_noise`);
`none` models the panic on an out-of-bounds pixel swap. -/
def NoiseTypes.addNoise (n : NoiseTypes) (img : Image) : Option Image :=
  (n.bounded.addNoise img n.stream).map (fun st => st.1)

/-- Embeds `DrawInstruction` (image_gen.rs). -/
structure DrawInstruction where
  preClipNoise : Option NoiseTypes
  clippingShape : Shape
  coloring : ColorScheme
  postClipNoise : Option NoiseTypes
  postDrawNoise : Option NoiseTypes

/-- The row-major nested pixel loops
`for y in 0..height { for x in 0..width { ... } }` shared by the sampling and
clipping passes of `draw_custom`. -/
def pixelWrites (w h : ℕ) (f : ℕ → ℕ → List TransparentColor → List TransparentColor)
    (init : List TransparentColor) : List TransparentColor :=
  (List.range h).foldl (fun acc y => (List.range w).foldl (fun acc x => f x y acc) acc) init

/-- Steps 1–4 of `Image::draw_custom`: allocate the scratch layer, sample the
coloring scheme at every pixel, then reset every pixel outside the clipping
shape to fully transparent.  The pre-clip noise arm of the source moves the
scratch buffer by value into an operator whose parameter type is the canvas
(`&mut Image`) and discards any result, so it has no observable effect on the
pipeline state and is modelled as leaving the layer unchanged.
The layer writes `new_layer[get_index(x,y)] = ...` never panic: for
`x < width` and `y < height = len / width` the index `x + y * width` is at most
`width * height - 1 < len`, so the in-range `List.set` is exact. -/
def Image.drawCustomLayer (img : Image) (instruction : DrawInstruction) : List TransparentColor :=
  let layer0 := List.replicate img.canvas.length TransparentColor.TRANSPARENT
  let sampled := pixelWrites img.canvasWidth img.canvasHeight
    (fun x y l => l.set (img.getIndex x y) (instruction.coloring.sampleColor ⟨(x : ℚ), (y : ℚ)⟩))
    layer0
  pixelWrites img.canvasWidth img.canvasHeight
    (fun x y l =>
      if instruction.clippingShape.contains ⟨(x : ℚ), (y : ℚ)⟩ then l
      else l.set (img.getIndex x y) TransparentColor.TRANSPARENT)
    sampled

/-- Step 5 of `Image::draw_custom`: the post-clip noise arm of the source is
`noise.add_noise(self, rng)` — it is applied to the persistent canvas
(`self`), not to the scratch layer.  `none` models the noise operator
panicking on an out-of-bounds pixel swap. -/
def Image.drawCustomCanvasBeforeComposite (img : Image) (instruction : DrawInstruction) :
    Option Image :=
  match instruction.postClipNoise with
  | some noise => noise.addNoise img
  | none => some img

/-- Embeds `Image::draw_custom`, steps 1–7: build the scratch layer (steps 1–4),
apply the post-clip noise to the canvas (step 5, as the source does), then
composite `new_layer[index].draw_on_solid(canvas_color)` over every canvas
pixel (step 6) and apply the post-draw noise (step 7).  `none` models a noise
operator panicking on an out-of-bounds pixel swap; the sampling, clipping and
compositing loops themselves never panic.  The composite loop indexes the
scratch layer with the canvas index; the layer has the original canvas length
and any completing noise application preserves the canvas length, so the
`zipWith` pairing coincides with the source's in-range indexing. -/
def Image.drawCustom (img : Image) (instruction : DrawInstruction) : Option Image := do
  let newLayer := img.drawCustomLayer instruction
  let imgMid ← img.drawCustomCanvasBeforeComposite instruction
  let composited : Image :=
    { canvasWidth := imgMid.canvasWidth,
      canvas := List.zipWith (fun t c => t.drawOnSolid c) newLayer imgMid.canvas }
  match instruction.postDrawNoise with
  | some noise => noise.addNoise composited
  | none => some composited

/-! ### Concrete fixtures used by the closed theorems -/

/-- Fully opaque white. -/
def cWhite : TransparentColor := ⟨255, 255, 255, 255⟩

/-- Fully opaque black. -/
def cBlack : TransparentColor := ⟨0, 0, 0, 255⟩

/-- The linear gradient with pole 1 at `(0,0)` colored white and pole 2 at
`(1,0)` colored black (already in canonical pole order). -/
def gradTest : LinearGradient := ⟨(⟨0, 0⟩, cWhite), (⟨1, 0⟩, cBlack)⟩

/-- A first solid color. -/
def sA : SolidColor := ⟨10, 20, 30⟩

/-- A second solid color, distinct from `sA`. -/
def sB : SolidColor := ⟨40, 50, 60⟩

/-- A 2×1 image whose two pixels are `sA` and `sB`. -/
def img2 : Image := ⟨2, [sA, sB]⟩

/-- A 1×1 image. -/
def img7 : Image := ⟨1, [sA]⟩

/-- A bounded-noise configuration over the 2×1 canvas with half swap
density. -/
def bn3 : BoundedNoise := ⟨Rect.fromPoints ⟨0, 0⟩ ⟨2, 1⟩, 1/2⟩

/-- A point stream whose first draw is `(0,0)` and whose later draws are
`(1,0)`. -/
def stream3 : ℕ → Point := fun n => if n = 0 then ⟨0, 0⟩ else ⟨1, 0⟩

/-- The noise operator that swaps pixel `(0,0)` with pixel `(1,0)` of a 2×1
canvas (one swap: `2 * 1 * (1/2) = 1`). -/
def noise3 : NoiseTypes := ⟨stream3, bn3⟩

/-- Draw instruction for the 2×1 canvas: full-canvas rectangular clip, the
empty complex gradient (which samples fully transparent everywhere), and
`noise3` as the post-clip noise operator. -/
def instr3 : DrawInstruction :=
  ⟨none, Shape.rect (Rect.fromPoints ⟨0, 0⟩ ⟨2, 1⟩), ColorScheme.complexGradient ⟨[]⟩,
   some noise3, none⟩

/-- Bounded noise over the unit square. -/
def bn5 : BoundedNoise := ⟨Rect.fromPoints ⟨0, 0⟩ ⟨1, 1⟩, 1⟩

/-- A point stream whose first draw `(5,5)` is far outside `bn5`'s bounds and
whose second draw `(1/2, 1/2)` is strictly inside them. -/
def stream5 : ℕ → Point := fun n => if n = 0 then ⟨5, 5⟩ else ⟨1/2, 1/2⟩

/-- Bounded noise with swap density `0.5` (for the 1×1 canvas this makes
`1 * 1 * 0.5 = 0.5` expected swaps). -/
def bn7 : BoundedNoise := ⟨Rect.fromPoints ⟨0, 0⟩ ⟨1, 1⟩, 1/2⟩

/-- Bounded noise with swap density `1`. -/
def bn7w : BoundedNoise := ⟨Rect.fromPoints ⟨0, 0⟩ ⟨1, 1⟩, 1⟩

/-- The constant point stream at the origin. -/
def stream0 : ℕ → Point := fun _ => ⟨0, 0⟩

/-- The constant point stream at `(50, 50)`, far outside every bounding rect
used here: rejection sampling falls through its 200 retries and returns it
anyway, driving the swap indices out of the canvas. -/
def streamFar : ℕ → Point := fun _ => ⟨50, 50⟩

/-- A noise-free draw instruction over the full 2×1 canvas (the clip is a
rectangle containing both pixel points). -/
def instrW : DrawInstruction :=
  ⟨none, Shape.rect (Rect.fromPoints ⟨0, 0⟩ ⟨2, 1⟩), ColorScheme.complexGradient ⟨[]⟩,
   none, none⟩

/-- The image produced by running `draw_custom` on `img2` with `instrW`
(definitionally the composited canvas, since `instrW` carries no noise). -/
def imgW : Image :=
  ⟨img2.canvasWidth,
   List.zipWith (fun t c => t.drawOnSolid c) (img2.drawCustomLayer instrW) img2.canvas⟩

/-! ### Helper lemmas -/

theorem toU8_fin (c : Fin 256) : toU8 c.val = c := by
  apply Fin.ext
  simp [toU8, Nat.mod_eq_of_lt c.isLt]

theorem f64AsU8_clamp_fin (c : Fin 256) : f64AsU8 (fclamp ((c.val : ℚ)) 0 255) = c := by
  have h1 : (0 : ℚ) ≤ (c.val : ℚ) := by positivity
  have h2 : ((c.val : ℚ)) ≤ 255 := by exact_mod_cast Nat.le_of_lt_succ c.isLt
  rw [fclamp, max_eq_left h1, min_eq_left h2]
  apply Fin.ext
  simp [f64AsU8]
  omega

theorem mix_pair_snd (c1 c2 : TransparentColor) :
    TransparentColor.mix [(c1, 0), (c2, 1)] = c2 := by
  obtain ⟨r, g, b, a⟩ := c2
  unfold TransparentColor.mix
  simp only [List.foldl_cons, List.foldl_nil, mul_zero, mul_one, add_zero, zero_add]
  congr 1 <;> exact f64AsU8_clamp_fin _

theorem mix_pair_fst (c1 c2 : TransparentColor) :
    TransparentColor.mix [(c1, 1), (c2, 0)] = c1 := by
  obtain ⟨r, g, b, a⟩ := c1
  unfold TransparentColor.mix
  simp only [List.foldl_cons, List.foldl_nil, mul_zero, mul_one, add_zero, zero_add]
  congr 1 <;> exact f64AsU8_clamp_fin _

theorem ratSqrt_zero : Rat.sqrt 0 = 0 := by decide

theorem ratSqrt_pos {q : ℚ} (hq : 0 < q) : 0 < Rat.sqrt q := by
  rw [Rat.sqrt, Rat.mkRat_eq_div]
  have hnum : 0 < q.num := Rat.num_pos.mpr hq
  have h1 : 0 < Int.sqrt q.num := by
    rw [Int.sqrt]
    have h : 0 < q.num.toNat := by omega
    exact_mod_cast Nat.sqrt_pos.mpr h
  have h2 : 0 < Nat.sqrt q.den := Nat.sqrt_pos.mpr q.den_pos
  exact div_pos (by exact_mod_cast h1) (by exact_mod_cast h2)

theorem Point.squareDistTo_self (p : Point) : p.squareDistTo p = 0 := by
  simp [Point.squareDistTo]

theorem Point.distTo_self (p : Point) : p.distTo p = 0 := by
  rw [Point.distTo, Point.squareDistTo_self, ratSqrt_zero]

theorem Point.squareDistTo_pos {p q : Point} (h : p ≠ q) : 0 < p.squareDistTo q := by
  have hne : q.x - p.x ≠ 0 ∨ q.y - p.y ≠ 0 := by
    by_contra hc
    push_neg at hc
    exact h (by cases p; cases q; simp_all [sub_eq_zero])
  rw [Point.squareDistTo]
  rcases hne with hx | hy
  · exact add_pos_of_pos_of_nonneg (mul_self_pos.mpr hx) (mul_self_nonneg _)
  · exact add_pos_of_nonneg_of_pos (mul_self_nonneg _) (mul_self_pos.mpr hy)

theorem Point.distTo_pos {p q : Point} (h : p ≠ q) : 0 < p.distTo q :=
  ratSqrt_pos (Point.squareDistTo_pos h)

theorem drawOnSolid_transparent (c : SolidColor) :
    TransparentColor.TRANSPARENT.drawOnSolid c = c := by
  obtain ⟨r, g, b⟩ := c
  unfold TransparentColor.drawOnSolid TransparentColor.TRANSPARENT
  simp only [Fin.val_zero, Nat.sub_zero, Nat.zero_mul, Nat.mul_zero, Nat.zero_div, Nat.add_zero]
  congr 1 <;>
    · rw [Nat.mul_div_cancel _ (by norm_num : (0:ℕ) < 255)]
      exact toU8_fin _

theorem retryLoop_eq (bn : BoundedNoise) (m r : Point) : ∀ fuel, bn.retryLoop m r fuel = r := by
  intro fuel
  induction fuel with
  | zero => rfl
  | succ n ih =>
    rw [BoundedNoise.retryLoop]
    split
    · rfl
    · exact ih

theorem sampleBoundedPoint_eq (bn : BoundedNoise) (stream : ℕ → Point) (k : ℕ) :
    bn.sampleBoundedPoint stream k = (stream k, k + 1) := by
  show (bn.retryLoop bn.bounds.maxPoint (stream k) 200, k + 1) = (stream k, k + 1)
  rw [retryLoop_eq]

theorem addNoiseLoop_swaps (bn : BoundedNoise) (stream : ℕ → Point) :
    ∀ fuel st st', bn.addNoiseLoop stream fuel st = some st' → st'.2.2 = st.2.2 + fuel := by
  intro fuel
  induction fuel with
  | zero =>
    intro st st' h
    rw [BoundedNoise.addNoiseLoop, Option.some.injEq] at h
    rw [← h]
    rfl
  | succ n ih =>
    intro st st' h
    obtain ⟨img, k, swaps⟩ := st
    rw [BoundedNoise.addNoiseLoop] at h
    split at h
    · have hs := ih _ _ h
      rw [hs]
      show swaps + 1 + n = swaps + (n + 1)
      omega
    · exact absurd h (by simp)

theorem swapPixels_dims (img : Image) (x1 y1 x2 y2 : ℕ) (img' : Image)
    (h : img.swapPixels x1 y1 x2 y2 = some img') :
    img'.canvasWidth = img.canvasWidth ∧ img'.canvas.length = img.canvas.length := by
  unfold Image.swapPixels at h
  cases h1 : img.getPixel x1 y1 with
  | none => rw [h1] at h; exact absurd h (by simp)
  | some p1 =>
    cases h2 : img.getPixel x2 y2 with
    | none => rw [h1, h2] at h; exact absurd h (by simp)
    | some p2 =>
      rw [h1, h2] at h
      have h' := Option.some.inj h
      rw [← h']
      exact ⟨rfl, by simp⟩

theorem addNoiseLoop_dims (bn : BoundedNoise) (stream : ℕ → Point) :
    ∀ fuel st st', bn.addNoiseLoop stream fuel st = some st' →
      st'.1.canvasWidth = st.1.canvasWidth ∧ st'.1.canvas.length = st.1.canvas.length := by
  intro fuel
  induction fuel with
  | zero =>
    intro st st' h
    rw [BoundedNoise.addNoiseLoop, Option.some.injEq] at h
    rw [← h]
    exact ⟨rfl, rfl⟩
  | succ n ih =>
    intro st st' h
    obtain ⟨img, k, swaps⟩ := st
    rw [BoundedNoise.addNoiseLoop] at h
    split at h
    · next img' hswap =>
      have hd := ih _ _ h
      have hs := swapPixels_dims img _ _ _ _ _ hswap
      exact ⟨hd.1.trans hs.1, hd.2.trans hs.2⟩
    · exact absurd h (by simp)

theorem noiseAddNoise_dims (n : NoiseTypes) (img img' : Image)
    (h : n.addNoise img = some img') :
    img'.canvasWidth = img.canvasWidth ∧ img'.canvas.length = img.canvas.length := by
  unfold NoiseTypes.addNoise at h
  cases hb : n.bounded.addNoise img n.stream with
  | none => rw [hb] at h; exact absurd h (by simp)
  | some st =>
    rw [hb] at h
    have h' := Option.some.inj h
    rw [← h']
    exact addNoiseLoop_dims _ _ _ _ _ hb

/-! ### Claim theorems -/

/-- C10: `Scale::identity()` is not the identity transformation: its scalar is
`Area::EMPTY` (both factors `0`), it maps every point to the origin, and the
scale factors computed by its `get_inverse` are the IEEE divisions `1.0 / 0.0`,
i.e. positive infinity. -/
theorem C10_theorem :
    (∀ p : Point, Scale.identity.transform p = Point.ORIGIN) ∧
    Scale.identity.scalar = Area.EMPTY ∧
    Scale.invFactorWidth Scale.identity = FVal.inf ∧
    Scale.invFactorHeight Scale.identity = FVal.inf ∧
    Scale.identity.transform ⟨1, 1⟩ ≠ (⟨1, 1⟩ : Point) := by
  have htrans : ∀ p : Point, Scale.identity.transform p = Point.ORIGIN := by
    intro p
    simp [Scale.identity, Scale.by, Scale.byFrom, Scale.transform, Translation.to,
      Translation.transform, Translation.inverseTransform, Translation.getInverseT,
      Point.ORIGIN, Area.EMPTY]
  refine ⟨htrans, rfl, ?_, ?_, ?_⟩
  · norm_num [Scale.invFactorWidth, Scale.identity, Scale.by, Scale.byFrom, fdiv, Area.EMPTY]
  · norm_num [Scale.invFactorHeight, Scale.identity, Scale.by, Scale.byFrom, fdiv, Area.EMPTY]
  · rw [htrans ⟨1, 1⟩]
    simp [Point.ORIGIN, Point.mk.injEq]

/-- C4: the transform round-trip `t.inverse_transform(t.transform(p)) ≈ p`
fails on the code: the rotation transform maps `(x, y)` to
`(cos(angle)·x, sin(angle)·y)`, so even the angle-`0` rotation (where the IEEE
cosine and sine are exactly `1` and `0`) sends `(0, 1)` to `(0, 0)`, and the
round trip returns `(0, 0)` instead of `(0, 1)`. -/
theorem C4_theorem :
    (Transformation.rotation Rotation.identity).inverseTransform
        ((Transformation.rotation Rotation.identity).transform ⟨0, 1⟩) = Point.ORIGIN ∧
    Point.ORIGIN ≠ (⟨0, 1⟩ : Point) := by
  constructor
  · show Rotation.identity.getInverseR.transform (Rotation.identity.transform ⟨0, 1⟩) = Point.ORIGIN
    norm_num [Rotation.transform, Rotation.identity, Rotation.getInverseR,
      Translation.identity, Translation.transform, Translation.inverseTransform,
      Translation.getInverseT, cosQ, sinQ, Point.ORIGIN]
  · simp [Point.ORIGIN, Point.mk.injEq]

/-- C2: `TransparentColor::draw_on` is not total: drawing a fully transparent
color over a fully transparent base makes the combined alpha `0`, and the
source divides `numer / new_alpha` with no guard — a `u32` division by zero,
which panics (modelled as `none`) instead of returning the base's channels. -/
theorem C2_theorem :
    TransparentColor.TRANSPARENT.drawOn TransparentColor.TRANSPARENT = none := by decide

/-- C6: `TransparentColor::from_hex_code` parses the alpha of an 8-digit code
from `hex_code[4..6]` — the same two digits as blue — instead of digits 7–8:
`"11223344"` yields alpha `0x33 = 51` (not `0x44 = 68`), and the last two
digits are never validated, so `"112233zz"` parses successfully as well.  The
6-digit opaque form and the bad-length rejection behave as claimed. -/
theorem C6_theorem :
    TransparentColor.fromHexCode ("11223344".toList) = some ⟨17, 34, 51, 51⟩ ∧
    TransparentColor.fromHexCode ("112233zz".toList) = some ⟨17, 34, 51, 51⟩ ∧
    TransparentColor.fromHexCode ("#112233".toList) = some ⟨17, 34, 51, 255⟩ ∧
    TransparentColor.fromHexCode ("1122334".toList) = none := by decide

/-- C5: `BoundedNoise::sample_bounded_point` draws exactly one point from the
sampler — the retry loop re-tests that same point up to 200 times and never
draws a fresh one — so it always returns the first draw, consuming one stream
element.  Concretely, with a first draw `(5,5)` outside the bounds and a
second draw `(1/2, 1/2)` strictly inside them, the code still returns the
out-of-bounds `(5,5)`. -/
theorem C5_theorem :
    (∀ (bn : BoundedNoise) (stream : ℕ → Point) (k : ℕ),
      bn.sampleBoundedPoint stream k = (stream k, k + 1)) ∧
    (bn5.sampleBoundedPoint stream5 0).1 = ⟨5, 5⟩ ∧
    bn5.bounds.contains ⟨5, 5⟩ = false ∧
    bn5.bounds.contains ⟨1/2, 1/2⟩ = true ∧
    (1 : ℚ) / 2 ≠ bn5.bounds.maxPoint.x ∧ (1 : ℚ) / 2 ≠ bn5.bounds.maxPoint.y := by
  have hb : bn5.bounds = ⟨⟨0, 0⟩, ⟨1, 1⟩⟩ := by
    norm_num [bn5, Rect.fromPoints]
  refine ⟨sampleBoundedPoint_eq, ?_, ?_, ?_, ?_, ?_⟩
  · rw [sampleBoundedPoint_eq]
    simp [stream5]
  · rw [hb]
    norm_num [Rect.contains, Rect.maxPoint]
  · rw [hb]
    norm_num [Rect.contains, Rect.maxPoint]
  · rw [hb]
    norm_num [Rect.maxPoint]
  · rw [hb]
    norm_num [Rect.maxPoint]

/-- C7 counterexample: on a 1×1 canvas with swap density `0.5`, the code
computes `(1 * 1 * 0.5) as usize = 0` iterations, so the run completes having
performed `0` swaps, but the claimed
`round(canvas_width * canvas_height * swap_density)` is `round(0.5) = 1`. -/
theorem C7_counterexample :
    bn7.addNoise img7 stream0 = some (img7, 0, 0) ∧
    (0 : ℕ) ≠
      (round ((img7.canvasWidth : ℚ) * (img7.canvasHeight : ℚ) * bn7.swapDensity)).toNat := by
  have h : bn7.totalIters img7 = 0 := by
    unfold BoundedNoise.totalIters
    norm_num [bn7, img7, Image.canvasHeight, f64AsUsize]
  constructor
  · unfold BoundedNoise.addNoise
    rw [h]
    rfl
  · have hr : (round ((img7.canvasWidth : ℚ) * (img7.canvasHeight : ℚ) *
        bn7.swapDensity)).toNat = 1 := by
      norm_num [bn7, img7, Image.canvasHeight, round_eq]
    rw [hr]
    omega

/-- C7 (amended): when an `add_noise` run completes without panicking, the
number of swaps performed is `canvas_width * canvas_height * swap_density`
truncated toward zero (the `as usize` cast), not rounded; with swap density
`1.0` on an `N`-pixel canvas a completing run performs exactly `N` swaps.  A
run need not complete: when rejection sampling falls back to an out-of-bounds
point, the mid-loop pixel swap panics and fewer swaps are performed — the
`bn7w`/`streamFar` run on the 2×1 canvas aborts on its first of 2 computed
iterations, having performed 0 swaps. -/
theorem C7_theorem :
    (∀ (bn : BoundedNoise) (img : Image) (stream : ℕ → Point) (st : Image × ℕ × ℕ),
      bn.addNoise img stream = some st →
        st.2.2 = (⌊(img.canvasWidth : ℚ) * (img.canvasHeight : ℚ) * bn.swapDensity⌋).toNat ∧
        (bn.swapDensity = 1 → st.2.2 = img.canvasWidth * img.canvasHeight)) ∧
    bn7w.addNoise img2 streamFar = none := by
  constructor
  · intro bn img stream st h
    have hcount : st.2.2 =
        (⌊(img.canvasWidth : ℚ) * (img.canvasHeight : ℚ) * bn.swapDensity⌋).toNat := by
      unfold BoundedNoise.addNoise at h
      have hs := addNoiseLoop_swaps bn stream _ _ _ h
      rw [hs]
      show 0 + bn.totalIters img = _
      rw [Nat.zero_add]
      rfl
    refine ⟨hcount, fun hdens => ?_⟩
    rw [hcount, hdens, mul_one]
    have hc : ((img.canvasWidth : ℚ) * (img.canvasHeight : ℚ)) =
        ((img.canvasWidth * img.canvasHeight : ℕ) : ℚ) := by push_cast; ring
    rw [hc, Int.floor_natCast, Int.toNat_natCast]
  · unfold BoundedNoise.addNoise
    have hti : bn7w.totalIters img2 = 2 := by
      unfold BoundedNoise.totalIters
      norm_num [bn7w, img2, Image.canvasHeight, f64AsUsize]
      rfl
    rw [hti]
    rw [BoundedNoise.addNoiseLoop]
    simp only [sampleBoundedPoint_eq]
    have hsf : ∀ k, streamFar k = ⟨50, 50⟩ := fun _ => rfl
    rw [hsf, hsf]
    have h50 : f64AsUsize ((50 : ℚ)) = 50 := by
      norm_num [f64AsUsize]
      rfl
    show (match img2.swapPixels (f64AsUsize (50 : ℚ)) (f64AsUsize (50 : ℚ))
        (f64AsUsize (50 : ℚ)) (f64AsUsize (50 : ℚ)) with
      | some img' => bn7w.addNoiseLoop streamFar 1 (img', 2, 1)
      | none => none) = none
    rw [h50]
    have hsw : img2.swapPixels 50 50 50 50 = none := by decide
    rw [hsw]

/-- C7 witness: with swap density `1` on the 2×1 canvas `img2` and the
always-in-bounds origin stream, the run completes and performs exactly
`2 = canvas_width * canvas_height` swaps. -/
theorem C7_witness : bn7w.swapDensity = 1 ∧ (2 : ℕ) = img2.canvasWidth * img2.canvasHeight := by
  have hti : bn7w.totalIters img2 = 2 := by
    unfold BoundedNoise.totalIters
    norm_num [bn7w, img2, Image.canvasHeight, f64AsUsize]
    rfl
  have h0 : f64AsUsize ((0 : ℚ)) = 0 := by norm_num [f64AsUsize]
  have hsw : img2.swapPixels 0 0 0 0 = some img2 := by decide
  have hrun : bn7w.addNoise img2 stream0 = some (img2, 4, 2) := by
    unfold BoundedNoise.addNoise
    rw [hti]
    rw [BoundedNoise.addNoiseLoop]
    simp only [sampleBoundedPoint_eq]
    show (match img2.swapPixels (f64AsUsize (0 : ℚ)) (f64AsUsize (0 : ℚ))
        (f64AsUsize (0 : ℚ)) (f64AsUsize (0 : ℚ)) with
      | some img' => bn7w.addNoiseLoop stream0 1 (img', 2, 1)
      | none => none) = some (img2, 4, 2)
    rw [h0, hsw]
    show bn7w.addNoiseLoop stream0 1 (img2, 2, 1) = some (img2, 4, 2)
    rw [show (1 : ℕ) = 0 + 1 from rfl]
    rw [BoundedNoise.addNoiseLoop]
    simp only [sampleBoundedPoint_eq]
    show (match img2.swapPixels (f64AsUsize (0 : ℚ)) (f64AsUsize (0 : ℚ))
        (f64AsUsize (0 : ℚ)) (f64AsUsize (0 : ℚ)) with
      | some img' => bn7w.addNoiseLoop stream0 0 (img', 4, 2)
      | none => none) = some (img2, 4, 2)
    rw [h0, hsw]
    rfl
  exact ⟨rfl, (C7_theorem.1 bn7w img2 stream0 (img2, 4, 2) hrun).2 rfl⟩

theorem sampleColor_at_poles (g : LinearGradient)
    (hord : g.pole1.1.x < g.pole2.1.x ∨
      (g.pole1.1.x = g.pole2.1.x ∧ g.pole1.1.y < g.pole2.1.y)) :
    g.sampleColor g.pole1.1 = g.pole2.2 ∧ g.sampleColor g.pole2.1 = g.pole1.2 := by
  have hne12 : g.pole1.1 ≠ g.pole2.1 := by
    rcases hord with hx | ⟨_, hy⟩
    · exact fun h => absurd (congrArg Point.x h) (ne_of_lt hx)
    · exact fun h => absurd (congrArg Point.y h) (ne_of_lt hy)
  have hd : 0 < g.pole2.1.distTo g.pole1.1 := Point.distTo_pos (Ne.symm hne12)
  unfold LinearGradient.sampleColor
  rcases hord with hx | ⟨hxe, hy⟩
  · rw [if_neg (ne_of_lt hx), if_neg (ne_of_lt hx)]
    constructor
    · rw [if_neg (lt_irrefl _), if_neg (not_lt.mpr hx.le)]
      simp only [Point.distTo_self, zero_div, zero_add, sub_zero]
      exact mix_pair_snd _ _
    · rw [if_neg (not_lt.mpr hx.le), if_neg (lt_irrefl _)]
      simp only [Point.distTo_self, add_zero]
      rw [div_self (ne_of_gt hd), sub_self]
      exact mix_pair_fst _ _
  · rw [if_pos hxe, if_pos hxe]
    constructor
    · rw [if_neg (lt_irrefl _), if_neg (not_lt.mpr hy.le)]
      simp only [Point.distTo_self, zero_div, zero_add, sub_zero]
      exact mix_pair_snd _ _
    · rw [if_neg (not_lt.mpr hy.le), if_neg (lt_irrefl _)]
      simp only [Point.distTo_self, add_zero]
      rw [div_self (ne_of_gt hd), sub_self]
      exact mix_pair_fst _ _

/-- C1 counterexample: for the gradient with pole 1 at `(0,0)` colored white
and pole 2 at `(1,0)` colored black, sampling exactly at pole 1's location
returns pole 2's color (black), not pole 1's color as claimed. -/
theorem C1_counterexample :
    gradTest.sampleColor ⟨0, 0⟩ = cBlack ∧ cBlack ≠ cWhite := by
  constructor
  · exact (sampleColor_at_poles gradTest (Or.inl (by norm_num [gradTest]))).1
  · decide

/-- C1 (amended): for every `LinearGradient` built by `with_poles` from
distinct poles, each pole's interpolation weight is the normalized distance to
that pole itself (not to the opposite pole), so sampling exactly at a pole's
location returns the *opposite* pole's color:
`sample_color(pole1.point) == pole2.color` and
`sample_color(pole2.point) == pole1.color` exactly. -/
theorem C1_theorem (pole1 pole2 : Point × TransparentColor) (g : LinearGradient)
    (h : LinearGradient.withPoles pole1 pole2 = some g) :
    g.sampleColor g.pole1.1 = g.pole2.2 ∧ g.sampleColor g.pole2.1 = g.pole1.2 := by
  apply sampleColor_at_poles
  unfold LinearGradient.withPoles at h
  split_ifs at h with h1 h2 h3 h4 <;> simp only [Option.some.injEq] at h <;> subst h
  · exact Or.inr ⟨h1, h3⟩
  · exact Or.inr ⟨h1.symm, lt_of_le_of_ne (not_lt.mp h3) (Ne.symm h2)⟩
  · exact Or.inl h4
  · exact Or.inl (lt_of_le_of_ne (not_lt.mp h4) (Ne.symm h1))

/-- C1 witness: `with_poles ((0,0), white) ((1,0), black)` succeeds and yields
`gradTest`, whose samples at the two pole locations are the opposite poles'
colors. -/
theorem C1_witness :
    LinearGradient.withPoles (⟨0, 0⟩, cWhite) (⟨1, 0⟩, cBlack) = some gradTest ∧
    gradTest.sampleColor ⟨0, 0⟩ = cBlack ∧ gradTest.sampleColor ⟨1, 0⟩ = cWhite := by
  have h : LinearGradient.withPoles (⟨0, 0⟩, cWhite) (⟨1, 0⟩, cBlack) = some gradTest := by
    norm_num [LinearGradient.withPoles, gradTest]
  exact ⟨h, (C1_theorem _ _ gradTest h).1, (C1_theorem _ _ gradTest h).2⟩

theorem drawCustomLayer_congr (img img' : Image) (i1 i2 : DrawInstruction)
    (hw : img'.canvasWidth = img.canvasWidth) (hl : img'.canvas.length = img.canvas.length)
    (hcol : i2.coloring = i1.coloring) (hclip : i2.clippingShape = i1.clippingShape) :
    img'.drawCustomLayer i2 = img.drawCustomLayer i1 := by
  unfold Image.drawCustomLayer Image.canvasHeight Image.getIndex
  rw [hw, hl, hcol, hclip]

/-- C3 (amended): the post-clip noise operator is applied to the persistent
canvas, not to the scratch layer: `draw_custom` with a post-clip noise
operator `n` behaves exactly like first applying `n` to the canvas (panic
included) and then drawing with no post-clip noise.  The canvas can therefore
change between entry and the compositing step. -/
theorem C3_theorem (img : Image) (instr : DrawInstruction) (n : NoiseTypes) :
    img.drawCustom { instr with postClipNoise := some n } =
      (n.addNoise img).bind
        (fun img' => img'.drawCustom { instr with postClipNoise := none }) := by
  cases hn : n.addNoise img with
  | none =>
    show img.drawCustom { instr with postClipNoise := some n } = none
    unfold Image.drawCustom
    rw [show img.drawCustomCanvasBeforeComposite { instr with postClipNoise := some n } =
      (none : Option Image) from hn]
    rfl
  | some img' =>
    have hd := noiseAddNoise_dims n img img' hn
    have hlayer : img.drawCustomLayer { instr with postClipNoise := some n } =
        img'.drawCustomLayer { instr with postClipNoise := none } :=
      (drawCustomLayer_congr img img' _ _ hd.1 hd.2 rfl rfl).symm
    show img.drawCustom { instr with postClipNoise := some n } =
      img'.drawCustom { instr with postClipNoise := none }
    unfold Image.drawCustom
    rw [show img.drawCustomCanvasBeforeComposite { instr with postClipNoise := some n } =
      some img' from hn]
    rw [show img'.drawCustomCanvasBeforeComposite { instr with postClipNoise := none } =
      some img' from rfl]
    rw [hlayer]

theorem noise3_run : noise3.addNoise img2 = some ⟨2, [sB, sA]⟩ := by
  have hrun : noise3.bounded.addNoise img2 noise3.stream = some (⟨2, [sB, sA]⟩, 2, 1) := by
    unfold BoundedNoise.addNoise
    have hiters : noise3.bounded.totalIters img2 = 1 := by
      unfold BoundedNoise.totalIters
      norm_num [noise3, bn3, img2, Image.canvasHeight, f64AsUsize]
    rw [hiters, show (1 : ℕ) = 0 + 1 from rfl]
    rw [BoundedNoise.addNoiseLoop]
    have hs0 : noise3.stream 0 = ⟨0, 0⟩ := by simp [noise3, stream3]
    have hs1 : noise3.stream (0 + 1) = ⟨1, 0⟩ := by simp [noise3, stream3]
    have h0 : f64AsUsize (0 : ℚ) = 0 := by norm_num [f64AsUsize]
    have h1 : f64AsUsize (1 : ℚ) = 1 := by norm_num [f64AsUsize]
    simp only [sampleBoundedPoint_eq, hs0, hs1, h0, h1]
    have hsw : img2.swapPixels 0 0 1 0 = some ⟨2, [sB, sA]⟩ := by decide
    rw [hsw]
    rfl
  unfold NoiseTypes.addNoise
  rw [hrun]
  rfl

/-- C3 counterexample: on the 2×1 canvas `[sA, sB]`, running `draw_custom`
with `instr3` (fully transparent coloring, full-canvas clip, and a post-clip
noise operator that swaps the two pixels), the canvas state just before the
compositing step is already `[sB, sA]` — the persistent canvas has changed
before compositing, contradicting the claim that step 5 only touches the
scratch layer. -/
theorem C3_counterexample :
    Image.drawCustomCanvasBeforeComposite img2 instr3 = some ⟨2, [sB, sA]⟩ ∧
    (⟨2, [sB, sA]⟩ : Image) ≠ img2 := by
  constructor
  · show noise3.addNoise img2 = _
    exact noise3_run
  · decide

theorem foldl_length_invariant {β : Type} (f : List TransparentColor → β → List TransparentColor)
    (hf : ∀ l b, (f l b).length = l.length) :
    ∀ (bs : List β) (l : List TransparentColor), (bs.foldl f l).length = l.length := by
  intro bs
  induction bs with
  | nil => intro l; rfl
  | cons b bs ih => intro l; rw [List.foldl_cons, ih, hf]

theorem pixelWrites_length (w h : ℕ)
    (f : ℕ → ℕ → List TransparentColor → List TransparentColor)
    (hf : ∀ x y l, (f x y l).length = l.length) (init : List TransparentColor) :
    (pixelWrites w h f init).length = init.length := by
  unfold pixelWrites
  apply foldl_length_invariant
  intro l y
  apply foldl_length_invariant
  intro l' x
  exact hf x y l'

theorem drawCustomLayer_length (img : Image) (instruction : DrawInstruction) :
    (img.drawCustomLayer instruction).length = img.canvas.length := by
  unfold Image.drawCustomLayer
  rw [pixelWrites_length, pixelWrites_length, List.length_replicate]
  · intro x y l; simp
  · intro x y l
    split
    · rfl
    · simp

/-- C9: every public mutating operation on `Image` — `swap_pixels`, every
`add_noise` application, and `draw_custom` — preserves the canvas width and
the pixel-buffer length (hence the canvas height) whenever it completes
(an out-of-bounds noise swap panics instead of producing an image, so no run
of the code ever yields an image of different dimensions). -/
theorem C9_theorem :
    (∀ (img : Image) (x1 y1 x2 y2 : ℕ) (img' : Image),
      img.swapPixels x1 y1 x2 y2 = some img' →
      img'.canvasWidth = img.canvasWidth ∧ img'.canvas.length = img.canvas.length) ∧
    (∀ (n : NoiseTypes) (img img' : Image), n.addNoise img = some img' →
      img'.canvasWidth = img.canvasWidth ∧ img'.canvas.length = img.canvas.length) ∧
    (∀ (img : Image) (instruction : DrawInstruction) (img' : Image),
      img.drawCustom instruction = some img' →
      img'.canvasWidth = img.canvasWidth ∧ img'.canvas.length = img.canvas.length) := by
  refine ⟨swapPixels_dims, noiseAddNoise_dims, fun img instruction img' h => ?_⟩
  unfold Image.drawCustom at h
  cases hmid : img.drawCustomCanvasBeforeComposite instruction with
  | none =>
    rw [hmid] at h
    exact absurd h (by simp)
  | some imgMid =>
    rw [hmid] at h
    have hmd : imgMid.canvasWidth = img.canvasWidth ∧
        imgMid.canvas.length = img.canvas.length := by
      unfold Image.drawCustomCanvasBeforeComposite at hmid
      cases hpc : instruction.postClipNoise with
      | some nn =>
        rw [hpc] at hmid
        exact noiseAddNoise_dims nn img imgMid hmid
      | none =>
        rw [hpc] at hmid
        have := Option.some.inj hmid
        rw [this]
        exact ⟨rfl, rfl⟩
    have hcomp : (Image.mk imgMid.canvasWidth
        (List.zipWith (fun t c => t.drawOnSolid c) (img.drawCustomLayer instruction)
          imgMid.canvas)).canvasWidth = img.canvasWidth ∧
        (Image.mk imgMid.canvasWidth
        (List.zipWith (fun t c => t.drawOnSolid c) (img.drawCustomLayer instruction)
          imgMid.canvas)).canvas.length = img.canvas.length := by
      refine ⟨hmd.1, ?_⟩
      show (List.zipWith _ _ _).length = _
      rw [List.length_zipWith, drawCustomLayer_length, hmd.2, min_self]
    cases hpd : instruction.postDrawNoise with
    | some nn =>
      have h' : nn.addNoise (Image.mk imgMid.canvasWidth
          (List.zipWith (fun t c => t.drawOnSolid c) (img.drawCustomLayer instruction)
            imgMid.canvas)) = some img' := by
        rw [hpd] at h
        exact h
      have hn := noiseAddNoise_dims nn _ img' h'
      exact ⟨hn.1.trans hcomp.1, hn.2.trans hcomp.2⟩
    | none =>
      have h' : some (Image.mk imgMid.canvasWidth
          (List.zipWith (fun t c => t.drawOnSolid c) (img.drawCustomLayer instruction)
            imgMid.canvas)) = some img' := by
        rw [hpd] at h
        exact h
      rw [← Option.some.inj h']
      exact hcomp

/-- C9 witness: concrete completing runs — the in-bounds pixel swap on the
2×1 canvas, the `noise3` application, and the noise-free `draw_custom` with
`instrW` — all preserve the dimensions of `img2`. -/
theorem C9_witness :
    ((⟨2, [sB, sA]⟩ : Image).canvasWidth = img2.canvasWidth ∧
      (⟨2, [sB, sA]⟩ : Image).canvas.length = img2.canvas.length) ∧
    ((⟨2, [sB, sA]⟩ : Image).canvasWidth = img2.canvasWidth ∧
      (⟨2, [sB, sA]⟩ : Image).canvas.length = img2.canvas.length) ∧
    (imgW.canvasWidth = img2.canvasWidth ∧ imgW.canvas.length = img2.canvas.length) := by
  refine ⟨?_, ?_, ?_⟩
  · exact C9_theorem.1 img2 0 0 1 0 ⟨2, [sB, sA]⟩ (by decide)
  · exact C9_theorem.2.1 noise3 img2 ⟨2, [sB, sA]⟩ noise3_run
  · exact C9_theorem.2.2 img2 instrW imgW rfl

theorem circle_zero_contains (c : Point) (p : Point) :
    (Ellipse.circle c 0).contains p = false := by
  unfold Ellipse.contains Ellipse.circle
  have hr : ((0 : ℚ) * 2 / 2) * ((0 : ℚ) * 2 / 2) = 0 := by norm_num
  by_cases hx : p.x - c.x = 0 <;> by_cases hy : p.y - c.y = 0 <;>
    simp [fdiv, fadd, fle, hx, hy, hr, mul_self_eq_zero, mul_self_pos, sub_eq_zero]

theorem getD_set_self_default (l : List TransparentColor) (i : ℕ) (v : TransparentColor) :
    (l.set i v).getD i v = v := by
  by_cases h : i < l.length
  · rw [List.getD_eq_getD_get?, List.get?_set_eq_of_lt _ h]
    rfl
  · rw [List.getD_eq_default]
    rw [List.length_set]
    omega

theorem getD_set_ne (l : List TransparentColor) {i j : ℕ} (h : j ≠ i)
    (v d : TransparentColor) : (l.set j v).getD i d = l.getD i d := by
  rw [List.getD_eq_getD_get?, List.getD_eq_getD_get?, List.get?_set_ne _ _ h]

theorem row_getD_untouched (g : ℕ → ℕ) (V : ℕ → TransparentColor) (i : ℕ)
    (d : TransparentColor) :
    ∀ (xs : List ℕ) (l : List TransparentColor), (∀ x ∈ xs, g x ≠ i) →
      (xs.foldl (fun acc x => acc.set (g x) (V x)) l).getD i d = l.getD i d := by
  intro xs
  induction xs with
  | nil => intro l _; rfl
  | cons x xs ih =>
    intro l hx
    rw [List.foldl_cons, ih _ (fun x' hx' => hx x' (List.mem_cons_of_mem _ hx')),
      getD_set_ne _ (hx x (List.mem_cons_self _ _)) ]

theorem row_getD_preserve (g : ℕ → ℕ) (i : ℕ) (v : TransparentColor) :
    ∀ (xs : List ℕ) (l : List TransparentColor), l.getD i v = v →
      (xs.foldl (fun acc x => acc.set (g x) v) l).getD i v = v := by
  intro xs
  induction xs with
  | nil => intro l h; exact h
  | cons x xs ih =>
    intro l h
    rw [List.foldl_cons]
    apply ih
    by_cases hx : g x = i
    · rw [hx]; exact getD_set_self_default l i v
    · rw [getD_set_ne _ hx]; exact h

theorem row_getD_establish (g : ℕ → ℕ) (i : ℕ) (v : TransparentColor) :
    ∀ (xs : List ℕ) (l : List TransparentColor), (∃ x ∈ xs, g x = i) →
      (xs.foldl (fun acc x => acc.set (g x) v) l).getD i v = v := by
  intro xs
  induction xs with
  | nil => intro l h; simp at h
  | cons x xs ih =>
    intro l h
    rw [List.foldl_cons]
    by_cases hx : g x = i
    · apply row_getD_preserve
      rw [hx]; exact getD_set_self_default l i v
    · obtain ⟨x', hx', hgx'⟩ := h
      rcases List.mem_cons.mp hx' with rfl | hmem
      · exact absurd hgx' hx
      · exact ih _ ⟨x', hmem, hgx'⟩

theorem pw_getD_untouched (w : ℕ) (V : ℕ → ℕ → TransparentColor) (i : ℕ)
    (d : TransparentColor) :
    ∀ (h : ℕ) (init : List TransparentColor), (∀ x y, x < w → y < h → x + y * w ≠ i) →
      (pixelWrites w h (fun x y l => l.set (x + y * w) (V x y)) init).getD i d =
        init.getD i d := by
  intro h
  induction h with
  | zero => intro init _; rfl
  | succ h ih =>
    intro init hunv
    unfold pixelWrites
    rw [List.range_succ, List.foldl_append, List.foldl_cons, List.foldl_nil]
    have hrow := row_getD_untouched (fun x => x + h * w) (fun x => V x h) i d (List.range w)
    rw [hrow _ (fun x hx => hunv x h (List.mem_range.mp hx) (Nat.lt_succ_self h))]
    exact ih init (fun x y hx hy => hunv x y hx (Nat.lt_succ_of_lt hy))

theorem pw_getD_visited (w : ℕ) (v : TransparentColor) (i : ℕ) :
    ∀ (h : ℕ) (init : List TransparentColor), (∃ x y, x < w ∧ y < h ∧ x + y * w = i) →
      (pixelWrites w h (fun x y l => l.set (x + y * w) v) init).getD i v = v := by
  intro h
  induction h with
  | zero => intro init hvis; omega
  | succ h ih =>
    intro init hvis
    unfold pixelWrites
    rw [List.range_succ, List.foldl_append, List.foldl_cons, List.foldl_nil]
    obtain ⟨x, y, hx, hy, hi⟩ := hvis
    rcases Nat.lt_succ_iff_lt_or_eq.mp hy with hy' | rfl
    · apply row_getD_preserve (fun x => x + h * w) i v (List.range w)
      exact ih init ⟨x, y, hx, hy', hi⟩
    · apply row_getD_establish (fun x => x + y * w) i v (List.range w)
      exact ⟨x, List.mem_range.mpr hx, hi⟩

theorem getD_replicate_self (n i : ℕ) (v : TransparentColor) :
    (List.replicate n v).getD i v = v := by
  by_cases h : i < n
  · rw [List.getD_eq_getElem _ _ (by simpa using h), List.getElem_replicate]
  · rw [List.getD_eq_default]
    simpa using h

theorem zipWith_drawOnSolid_transparent :
    ∀ (l1 : List TransparentColor) (l2 : List SolidColor), l1.length = l2.length →
      (∀ i, l1.getD i TransparentColor.TRANSPARENT = TransparentColor.TRANSPARENT) →
      List.zipWith (fun t c => t.drawOnSolid c) l1 l2 = l2 := by
  intro l1
  induction l1 with
  | nil =>
    intro l2 hlen _
    rw [List.zipWith_nil_left]
    exact (List.length_eq_zero.mp hlen.symm).symm
  | cons t ts ih =>
    intro l2 hlen hall
    cases l2 with
    | nil => simp at hlen
    | cons c cs =>
      have ht : t = TransparentColor.TRANSPARENT := hall 0
      rw [List.zipWith_cons_cons, ht, drawOnSolid_transparent,
        ih cs (by simpa using hlen) (fun i => hall (i + 1))]

theorem drawCustomLayer_zero_ellipse (img : Image) (c : Point) (col : ColorScheme)
    (pre post1 post2 : Option NoiseTypes) (i : ℕ) :
    (img.drawCustomLayer
        ⟨pre, Shape.ellipse (Ellipse.circle c 0), col, post1, post2⟩).getD i
      TransparentColor.TRANSPARENT = TransparentColor.TRANSPARENT := by
  unfold Image.drawCustomLayer
  have hclipf : (fun (x y : ℕ) (l : List TransparentColor) =>
      if (DrawInstruction.mk pre (Shape.ellipse (Ellipse.circle c 0)) col post1
            post2).clippingShape.contains ⟨(x : ℚ), (y : ℚ)⟩ then l
      else l.set (img.getIndex x y) TransparentColor.TRANSPARENT) =
      (fun (x y : ℕ) l => l.set (x + y * img.canvasWidth) TransparentColor.TRANSPARENT) := by
    funext x y l
    show (if (Ellipse.circle c 0).contains ⟨(x : ℚ), (y : ℚ)⟩ = true then l
      else l.set (img.getIndex x y) TransparentColor.TRANSPARENT) = _
    rw [circle_zero_contains]
    simp [Image.getIndex]
  rw [hclipf]
  by_cases hvis : ∃ x y, x < img.canvasWidth ∧ y < img.canvasHeight ∧
      x + y * img.canvasWidth = i
  · exact pw_getD_visited _ _ _ _ _ hvis
  · push_neg at hvis
    rw [pw_getD_untouched img.canvasWidth (fun _ _ => TransparentColor.TRANSPARENT) i
      TransparentColor.TRANSPARENT img.canvasHeight _
      (fun x y hx hy => hvis x y hx hy)]
    have hsample : (fun (x y : ℕ) (l : List TransparentColor) =>
        l.set (img.getIndex x y)
          ((DrawInstruction.mk pre (Shape.ellipse (Ellipse.circle c 0)) col post1
            post2).coloring.sampleColor ⟨(x : ℚ), (y : ℚ)⟩)) =
        (fun (x y : ℕ) l => l.set (x + y * img.canvasWidth)
          (col.sampleColor ⟨(x : ℚ), (y : ℚ)⟩)) := by
      funext x y l
      simp [Image.getIndex]
    rw [hsample]
    rw [pw_getD_untouched img.canvasWidth
      (fun x y => col.sampleColor ⟨(x : ℚ), (y : ℚ)⟩) i TransparentColor.TRANSPARENT
      img.canvasHeight _ (fun x y hx hy => hvis x y hx hy)]
    exact getD_replicate_self _ _ _

/-- C8: a `draw_custom` call whose clip shape is a zero-radius ellipse (and
which carries no noise operators, as in the spec's scenario) leaves the
persistent canvas exactly unchanged: the zero-radius ellipse contains no point
(not even its own center — the `f64` membership test divides by zero and
compares against NaN or infinity), so every scratch pixel is transparent at
compositing time and compositing is a per-pixel no-op. -/
theorem C8_theorem (img : Image) (c : Point) (col : ColorScheme) :
    (∀ p, (Ellipse.circle c 0).contains p = false) ∧
    img.drawCustom ⟨none, Shape.ellipse (Ellipse.circle c 0), col, none, none⟩ = some img := by
  refine ⟨circle_zero_contains c, ?_⟩
  obtain ⟨w, canvas⟩ := img
  show some (Image.mk w (List.zipWith (fun t c => t.drawOnSolid c)
    ((Image.mk w canvas).drawCustomLayer
      ⟨none, Shape.ellipse (Ellipse.circle c 0), col, none, none⟩) canvas)) =
    some (Image.mk w canvas)
  have hz : List.zipWith (fun t c => t.drawOnSolid c)
      ((Image.mk w canvas).drawCustomLayer
        ⟨none, Shape.ellipse (Ellipse.circle c 0), col, none, none⟩) canvas = canvas := by
    apply zipWith_drawOnSolid_transparent
    · exact drawCustomLayer_length _ _
    · exact fun i => drawCustomLayer_zero_ellipse _ c col none none none i
  rw [hz]
